import Mathlib

set_option autoImplicit false

universe u

/-- Modelled from the spec: the validation-result type of the repository's
`core::valid` module (declared outside `src/`; only `succeed`,
`from_validation_err`, `to_result`, `combine` and the emptiness check are used
by the merge code). A `Valid` either holds a success value or an ordered
collection of error messages; the merge code only ever builds a `failure`
from a non-empty collection. The error collection (`ValidationError<String>`)
is modelled as `List String`, with `combine` being concatenation in encounter
order and the emptiness check being `List.isEmpty`. -/
inductive Valid (α : Type u) : Type u where
  | success : α → Valid α
  | failure : List String → Valid α
deriving Repr, DecidableEq

namespace Valid

variable {α : Type u}

/-- Modelled from the spec: `Valid::succeed(value)` builds `Success(value)`. -/
def succeed (a : α) : Valid α := success a

/-- Modelled from the spec: `Valid::from_validation_err(errors)` wraps an
already accumulated (non-empty) error collection as a failure. -/
def fromValidationErr (errs : List String) : Valid α := failure errs

/-- Modelled from the spec: `to_result()` converts into a plain
success-or-failure outcome used with the error-short-circuit operator. -/
def toResult : Valid α → Except (List String) α
  | success a => .ok a
  | failure e => .error e

/-- Whether a `Valid` is in the `Success` state. -/
def isSuccess : Valid α → Bool
  | success _ => true
  | failure _ => false

end Valid

/-- The document value type merged by `impl MergeRight for Value`
(`serde_yaml::Value`): scalars (`Null`, `Bool`, `Number`, `String`), an
ordered `Sequence` of values, an insertion-ordered `Mapping` from value keys
to values (serde_yaml's `Mapping` preserves insertion order; it is modelled
here as the list of its entries in that order), and a `Tagged` value carrying
a string tag plus an inner value. `Number` internals are irrelevant to the
merge code (numbers are only moved around whole), so they are modelled by an
integer payload. -/
inductive Value : Type where
  | null : Value
  | bool : Bool → Value
  | number : Int → Value
  | string : String → Value
  | sequence : List Value → Value
  | mapping : List (Value × Value) → Value
  | tagged : String → Value → Value
deriving Repr

mutual

/-- Structural equality of document values, modelling `PartialEq` on
`serde_yaml::Value` as used for `Mapping` key comparison in
`Value::merge_right`. -/
def Value.beq : Value → Value → Bool
  | .null, .null => true
  | .bool a, .bool b => a == b
  | .number a, .number b => a == b
  | .string a, .string b => a == b
  | .sequence a, .sequence b => Value.beqList a b
  | .mapping a, .mapping b => Value.beqPairs a b
  | .tagged s a, .tagged t b => s == t && Value.beq a b
  | _, _ => false
termination_by a _ => sizeOf a

/-- Elementwise equality of value sequences (component of `Value.beq`). -/
def Value.beqList : List Value → List Value → Bool
  | [], [] => true
  | a :: as, b :: bs => Value.beq a b && Value.beqList as bs
  | _, _ => false
termination_by as _ => sizeOf as

/-- Entrywise equality of mapping entry lists (component of `Value.beq`). -/
def Value.beqPairs : List (Value × Value) → List (Value × Value) → Bool
  | [], [] => true
  | (k, v) :: ps, (k', v') :: qs =>
      Value.beq k k' && (Value.beq v v' && Value.beqPairs ps qs)
  | _, _ => false
termination_by ps _ => sizeOf ps

end

instance : BEq Value := ⟨Value.beq⟩

/-- Models `lhs.remove(&key)` on a `serde_yaml::Mapping`, which is a swap-remove on
the underlying insertion-ordered map: the entry whose key equals `k` is
removed and returned, and the mapping's last entry at that moment is moved
into the vacated slot. Returns `none` when no entry has key `k`. -/
def mappingRemove (k : Value) : List (Value × Value) → Option (Value × List (Value × Value))
  | [] => none
  | p :: rest =>
      if p.1 == k then
        match rest.getLast? with
        | none => some (p.2, [])
        | some q => some (p.2, q :: rest.dropLast)
      else
        match mappingRemove k rest with
        | none => none
        | some (v, rest') => some (v, p :: rest')

/-- Key lookup in a mapping's entry list: the value of the first entry whose
key equals `k` (on the unique-keys mapping invariant this is serde_yaml's
`Mapping` lookup). -/
def vlookup (k : Value) (m : List (Value × Value)) : Option Value :=
  (m.find? (fun p => p.1 == k)).map (·.2)

/-- The unique-keys invariant of every map-like container here (the spec: a
`Mapping`'s keys are unique at all times; likewise `BTreeMap`/`HashMap`). -/
def nodupKeys {K V : Type u} (m : List (K × V)) : Prop :=
  m.Pairwise (fun p q => p.1 ≠ q.1)

mutual

/-- The `impl MergeRight for Value`, `Value::merge_right` (src/core/merge_right.rs,
lines 98-157): scalars are overridden by the right value; a left sequence
concatenates a right sequence or pushes any other right value as one trailing
element; a left mapping key-wise unions a right mapping (via
`Value.mergeMapLoop`), becomes a trailing element of a right sequence, and is
otherwise replaced; equal-tag tagged values merge their inner values under
the tag (a failure propagating via `?`), while a differing tag or any other
right value replaces the left. `lhs.insert(key, v)` with `key` absent appends
the entry at the end of the insertion order. -/
def Value.merge_right : Value → Value → Valid Value
  | .null, other => Valid.succeed other
  | .bool _, other => Valid.succeed other
  | .number _, other => Valid.succeed other
  | .string _, other => Valid.succeed other
  | .sequence lhs, .sequence rhs => Valid.succeed (.sequence (lhs ++ rhs))
  | .sequence lhs, other => Valid.succeed (.sequence (lhs ++ [other]))
  | .mapping lhs, .mapping rhs =>
      match Value.mergeMapLoop lhs [] rhs with
      | (merged, errors) =>
        if errors.isEmpty then Valid.succeed (.mapping merged)
        else Valid.fromValidationErr errors
  | .mapping lhs, .sequence rhs => Valid.succeed (.sequence (rhs ++ [.mapping lhs]))
  | .mapping _, other => Valid.succeed other
  | .tagged ltag lval, .tagged rtag rval =>
      if ltag == rtag then
        match Value.merge_right lval rval with
        | .success v => Valid.succeed (.tagged ltag v)
        | .failure e => .failure e
      else Valid.succeed (.tagged rtag rval)
  | .tagged _ _, other => Valid.succeed other
termination_by _ r => sizeOf r

/-- The `for (key, other_value) in rhs` loop of the `Mapping`/`Mapping` arm of
`Value::merge_right` (lines 117-130), with the mutated `lhs` and the `errors`
accumulator threaded explicitly: a shared key is removed from `lhs` and its
recursively merged value re-inserted (appended, the key now being absent);
a failed recursive merge instead combines its errors onto the accumulator
(the key staying removed); a right-only key is inserted (appended). -/
def Value.mergeMapLoop (lhs : List (Value × Value)) (errors : List String) :
    List (Value × Value) → List (Value × Value) × List String
  | [] => (lhs, errors)
  | (key, otherValue) :: rest =>
      match mappingRemove key lhs with
      | some (lhsValue, lhs') =>
          match (Value.merge_right lhsValue otherValue).toResult with
          | .ok merged => Value.mergeMapLoop (lhs' ++ [(key, merged)]) errors rest
          | .error err => Value.mergeMapLoop lhs' (errors ++ err) rest
      | none => Value.mergeMapLoop (lhs ++ [(key, otherValue)]) errors rest
termination_by rhs => sizeOf rhs

end

/-- The merged value of two document values; total because every
`Value::merge_right` call succeeds (the `Null` fallback is unreachable). -/
def mergedValue (l r : Value) : Value :=
  match Value.merge_right l r with
  | .success v => v
  | .failure _ => .null

/-- Key-wise union of the optional per-key values of the two mappings, as the
spec's ordered-map rule describes it: a key on both sides has its values
recursively merged, a key on one side is carried through. -/
def mergeOpt : Option Value → Option Value → Option Value
  | some l, some r => some (mergedValue l r)
  | some l, none => some l
  | none, o => o

section Containers

variable {α : Type u} {K V : Type u}

/-- Modelled from the spec: `impl MergeRight for Option<A>` (src lines 11-20).
As written in src the impl does not type-check — its `(Some, Some)`,
`(None, Some)` and `(Some, None)` arms return `Option` values where
`Valid<Option<A>, String>` is required. This definition follows the spec's
table row for `Option<A>` and the arms' evident intent: both present →
recursively merge the contents (a failed recursive merge propagating as this
call's failure), one present → take it, neither → empty; successes wrapped in
`Success`. The element merge capability is passed as `mergeA`. -/
def optionMergeRight (mergeA : α → α → Valid α) : Option α → Option α → Valid (Option α)
  | some l, some r =>
      match mergeA l r with
      | .success m => Valid.succeed (some m)
      | .failure e => .failure e
  | none, some r => Valid.succeed (some r)
  | some l, none => Valid.succeed (some l)
  | none, none => Valid.succeed none

/-- Shallow model of `std::sync::Arc<A>`: the stored value together with
whether the reference is uniquely held. Reference-count dynamics are input
data here, not modelled state: `Arc::into_inner` recovers the owned value
exactly when the reference is uniquely held, and `Arc::new` builds a fresh
(hence uniquely held) reference. -/
structure Arc (α : Type u) : Type u where
  value : α
  unique : Bool
deriving Repr, DecidableEq

/-- Models `Arc::new(v)`. -/
def Arc.new (v : α) : Arc α := ⟨v, true⟩

/-- Models `Arc::into_inner`: `some` of the owned value when uniquely held, else
`none`. -/
def Arc.intoInner (a : Arc α) : Option α := if a.unique then some a.value else none

/-- The `.unwrap_or_default()` applied to the option-merge result inside
`Arc::merge_right`: the present successfully-merged value, or the default
when the merged option is absent or the merge failed. -/
def Valid.unwrapOptionOr (dflt : α) : Valid (Option α) → α
  | .success (some a) => a
  | .success none => dflt
  | .failure _ => dflt

/-- The `impl MergeRight for Arc<A>` (src lines 22-28): recover each side's owned
value when uniquely held (`Arc::into_inner`), merge the two recovered
`Option`s by the option rule, take the value or fall back to `A::default()`,
and re-wrap with `Arc::new`. The body in src is ill-typed as written
(`Arc::new(..)` where `Valid<Arc<A>, String>` is required, on top of the
ill-typed option merge); this definition is its evident intent — the
upstream shape `Arc::new(l.merge_right(r).unwrap_or_default())` with the
result lifted into `Success`. The default value is passed as `dflt`. -/
def arcMergeRight (mergeA : α → α → Valid α) (dflt : α) (l r : Arc α) : Valid (Arc α) :=
  Valid.succeed (Arc.new
    ((optionMergeRight mergeA l.intoInner r.intoInner).unwrapOptionOr dflt))

/-- Written from the spec's words (table row for the shared-ownership
wrapper), for comparison with `arcMergeRight`: unwrap each side to its owned
value when uniquely held, fall back to the type's default for a side that
could not be uniquely recovered, recursively merge the two resulting values,
and re-wrap the merged result. -/
def arcMergeRightSpec (mergeA : α → α → Valid α) (dflt : α) (l r : Arc α) :
    Valid (Arc α) :=
  match mergeA (l.intoInner.getD dflt) (r.intoInner.getD dflt) with
  | .success m => Valid.succeed (Arc.new m)
  | .failure e => .failure e

/-- The `impl MergeRight for Vec<A>` (src lines 30-35): `self.extend(other)` then
`Valid::succeed` — left elements first, then right elements, no
deduplication, no failure path. -/
def vecMergeRight (l r : List α) : Valid (List α) := Valid.succeed (l ++ r)

/-- Set insertion on a set modelled as its element list: a new element is
added, an already present one leaves the set unchanged. -/
def setInsert [DecidableEq α] (s : List α) (a : α) : List α :=
  if a ∈ s then s else s ++ [a]

/-- The `impl MergeRight for BTreeSet<V>` (src lines 68-76): `self.extend(other)`
then `Valid::succeed` — set union by inserting every right element; no
failure path. The ordered placement inside the set is abstracted; the
carrier is the element list. -/
def btreeSetMergeRight [DecidableEq α] (l r : List α) : Valid (List α) :=
  Valid.succeed (r.foldl setInsert l)

/-- The `impl MergeRight for HashSet<V>` (src lines 78-86): the same
extend-then-succeed shape for the unordered set. -/
def hashSetMergeRight [DecidableEq α] (l r : List α) : Valid (List α) :=
  Valid.succeed (r.foldl setInsert l)

/-- Entry insertion of `HashMap::extend`: an existing key's value is
overwritten in place, a new key's entry is added. -/
def hashMapInsert [DecidableEq K] : List (K × V) → K × V → List (K × V)
  | [], p => [p]
  | q :: rest, p =>
      if q.1 = p.1 then (q.1, p.2) :: rest else q :: hashMapInsert rest p

/-- The `impl MergeRight for HashMap<K, V>` (src lines 88-96):
`self.extend(other)` then `Valid::succeed` — right entries overwrite left
entries sharing a key, no recursive value merge, no failure path. The hash
map is modelled as its entry list (iteration order of `other` being its list
order). -/
def hashMapMergeRight [DecidableEq K] (l r : List (K × V)) : Valid (List (K × V)) :=
  Valid.succeed (r.foldl hashMapInsert l)

/-- Key lookup in a generic entry-list map model. -/
def klookup [DecidableEq K] (k : K) (m : List (K × V)) : Option V :=
  (m.find? (fun p => decide (p.1 = k))).map (·.2)

/-- Models `self.remove(&other_key)` on a `BTreeMap`: a BTreeMap is keyed — no
slots — so removal on the ascending-key entry list simply drops the entry
with the given key, returning its value. -/
def btreeRemove [DecidableEq K] (k : K) : List (K × V) → Option (V × List (K × V))
  | [] => none
  | p :: rest =>
      if p.1 = k then some (p.2, rest)
      else
        match btreeRemove k rest with
        | none => none
        | some (v, rest') => some (v, p :: rest')

/-- Models `self.insert(other_key, v)` on a `BTreeMap`: the entry enters at its
ordered position (replacing a present equal key, which the merge loop never
hits since the key was just removed or absent). -/
def btreeInsert [LinearOrder K] (k : K) (v : V) : List (K × V) → List (K × V)
  | [] => [(k, v)]
  | p :: rest =>
      if k < p.1 then (k, v) :: p :: rest
      else if k = p.1 then (k, v) :: rest
      else p :: btreeInsert k v rest

/-- The `for (other_key, other_value) in other` loop of
`BTreeMap::merge_right` (src lines 45-58), iterating in the list order of
`other` (ascending keys for a map in its invariant order), with `self` and
the `errors` accumulator threaded explicitly: a shared key's values are
recursively merged — the merged value re-inserted on success, the errors
combined (concatenated in encounter order) onto the accumulator on failure —
and a right-only entry is inserted. -/
def btreeMergeLoop [LinearOrder K] (mergeV : V → V → Valid V) :
    List (K × V) → List String → List (K × V) → List (K × V) × List String
  | self, errors, [] => (self, errors)
  | self, errors, (k, ov) :: rest =>
      match btreeRemove k self with
      | some (sv, self') =>
          match (mergeV sv ov).toResult with
          | .ok merged => btreeMergeLoop mergeV (btreeInsert k merged self') errors rest
          | .error err => btreeMergeLoop mergeV self' (errors ++ err) rest
      | none => btreeMergeLoop mergeV (btreeInsert k ov self) errors rest

/-- The `impl MergeRight for BTreeMap<K, V>` (src lines 37-66): run the loop with
an empty error accumulator; succeed with the merged map when nothing was
accumulated, otherwise fail with the accumulated errors. -/
def btreeMapMergeRight [LinearOrder K] (mergeV : V → V → Valid V)
    (self other : List (K × V)) : Valid (List (K × V)) :=
  match btreeMergeLoop mergeV self [] other with
  | (merged, errors) =>
      if errors.isEmpty then Valid.succeed merged else Valid.fromValidationErr errors

end Containers

/-- Whether a document value is a scalar leaf (`Null`, `Bool`, `Number`,
`String`) — the left-hand shapes of the first arm of `Value::merge_right`. -/
def Value.isScalar : Value → Bool
  | .null => true
  | .bool _ => true
  | .number _ => true
  | .string _ => true
  | _ => false

/-- Whether a document value is a `Sequence`. -/
def Value.isSequence : Value → Bool
  | .sequence _ => true
  | _ => false

/-- A deliberately non-left-defaulting element merge (`merge(default, v) ≠ v`),
separating the code's merge-then-default from the claim's per-side
default-then-merge for the shared-ownership wrapper. -/
def bumpMerge (a b : Nat) : Valid Nat := Valid.success (a + b + 1)


theorem Value.beq_iff_aux : ∀ n : Nat,
    (∀ a b : Value, sizeOf a ≤ n → (Value.beq a b = true ↔ a = b)) ∧
    (∀ as bs : List Value, sizeOf as ≤ n → (Value.beqList as bs = true ↔ as = bs)) ∧
    (∀ ps qs : List (Value × Value), sizeOf ps ≤ n →
      (Value.beqPairs ps qs = true ↔ ps = qs)) := by
  intro n
  induction n using Nat.strong_induction_on with
  | _ n ih =>
    refine ⟨?_, ?_, ?_⟩
    · intro a b hn
      cases a <;> cases b <;> simp_all [Value.beq]
      case sequence.sequence as bs =>
        have h1 : sizeOf as < n := by have := hn; simp at this; omega
        exact (ih _ h1).2.1 as bs (le_refl _)
      case mapping.mapping ps qs =>
        have h1 : sizeOf ps < n := by have := hn; simp at this; omega
        exact (ih _ h1).2.2 ps qs (le_refl _)
      case tagged.tagged s a t b =>
        have h1 : sizeOf a < n := by have := hn; simp at this; omega
        rw [(ih _ h1).1 a b (le_refl _)]
        tauto
    · intro as bs hn
      cases as <;> cases bs <;> simp_all [Value.beqList]
      case cons.cons a as b bs =>
        have h1 : sizeOf a < n := by have := hn; simp at this; omega
        have h2 : sizeOf as < n := by have := hn; simp at this; omega
        rw [(ih _ h1).1 a b (le_refl _), (ih _ h2).2.1 as bs (le_refl _)]
    · intro ps qs hn
      cases ps <;> cases qs <;> simp_all [Value.beqPairs]
      case cons.cons p ps q qs =>
        obtain ⟨k, v⟩ := p
        obtain ⟨k', v'⟩ := q
        have h1 : sizeOf k < n := by have := hn; simp at this; omega
        have h2 : sizeOf v < n := by have := hn; simp at this; omega
        have h3 : sizeOf ps < n := by have := hn; simp at this; omega
        rw [Value.beqPairs]
        simp only [Bool.and_eq_true, Prod.mk.injEq, List.cons.injEq]
        rw [(ih _ h1).1 k k' (le_refl _), (ih _ h2).1 v v' (le_refl _),
          (ih _ h3).2.2 ps qs (le_refl _)]
        tauto

theorem Value.beq_iff (a b : Value) : (Value.beq a b = true) ↔ a = b :=
  (Value.beq_iff_aux (sizeOf a)).1 a b (le_refl _)

instance : LawfulBEq Value where
  eq_of_beq h := (Value.beq_iff _ _).1 h
  rfl := (Value.beq_iff _ _).2 rfl

instance : DecidableEq Value := fun a b =>
  decidable_of_iff (Value.beq a b = true) (Value.beq_iff a b)

theorem vlookup_nil (k : Value) : vlookup k [] = none := rfl

theorem vlookup_cons (k : Value) (p : Value × Value) (m : List (Value × Value)) :
    vlookup k (p :: m) = if p.1 = k then some p.2 else vlookup k m := by
  by_cases h : p.1 = k
  · simp [vlookup, List.find?_cons_of_pos, h]
  · have hb : (p.1 == k) = false := by simpa using h
    simp [vlookup, List.find?_cons_of_neg, hb, h]

theorem vlookup_append (k : Value) (m₁ m₂ : List (Value × Value)) :
    vlookup k (m₁ ++ m₂) = (vlookup k m₁).or (vlookup k m₂) := by
  simp only [vlookup, List.find?_append]
  cases m₁.find? (fun p => p.1 == k) <;> simp

theorem vlookup_eq_none_iff (k : Value) (m : List (Value × Value)) :
    vlookup k m = none ↔ ∀ p ∈ m, p.1 ≠ k := by
  simp [vlookup, List.find?_eq_none]

theorem vlookup_some_mem {k v : Value} {m : List (Value × Value)}
    (h : vlookup k m = some v) : (k, v) ∈ m := by
  simp only [vlookup, Option.map_eq_some'] at h
  obtain ⟨p, hp, hv⟩ := h
  have h1 : p.1 = k := by simpa using List.find?_some hp
  have h2 := List.mem_of_find?_eq_some hp
  obtain ⟨pk, pv⟩ := p
  cases h1
  cases hv
  exact h2

theorem vlookup_of_mem {k v : Value} {m : List (Value × Value)}
    (hm : nodupKeys m) (h : (k, v) ∈ m) : vlookup k m = some v := by
  induction m with
  | nil => simp at h
  | cons p rest ih =>
    rcases List.mem_cons.mp h with h | h
    · cases h
      simp [vlookup_cons]
    · have hp : p.1 ≠ k := (List.pairwise_cons.mp hm).1 (k, v) h
      rw [vlookup_cons, if_neg hp]
      exact ih (List.pairwise_cons.mp hm).2 h

theorem nodupKeys_perm {m m' : List (Value × Value)} (hp : m.Perm m') :
    nodupKeys m ↔ nodupKeys m' :=
  hp.pairwise_iff (fun h => Ne.symm h)

theorem vlookup_perm {m m' : List (Value × Value)} (hm : nodupKeys m)
    (hp : m.Perm m') (k : Value) : vlookup k m = vlookup k m' := by
  cases h : vlookup k m with
  | some v =>
    exact ((vlookup_of_mem ((nodupKeys_perm hp).mp hm)
      (hp.mem_iff.mp (vlookup_some_mem h)))).symm
  | none =>
    cases h' : vlookup k m' with
    | none => rfl
    | some v =>
      have : (k, v) ∈ m := hp.mem_iff.mpr (vlookup_some_mem h')
      rw [vlookup_of_mem hm this] at h
      cases h

theorem mappingRemove_eq_none {k : Value} {m : List (Value × Value)} :
    mappingRemove k m = none ↔ vlookup k m = none := by
  induction m with
  | nil => simp [mappingRemove, vlookup_nil]
  | cons p rest ih =>
    rw [mappingRemove, vlookup_cons]
    by_cases hp : p.1 = k
    · have hb : (p.1 == k) = true := by simpa using hp
      rw [if_pos hb, if_pos hp]
      cases rest.getLast? <;> simp
    · have hb : (p.1 == k) = false := by simpa using hp
      rw [if_neg (by simp [hb]), if_neg hp, ← ih]
      cases mappingRemove k rest <;> simp

theorem mappingRemove_perm {k v : Value} {m m' : List (Value × Value)}
    (h : mappingRemove k m = some (v, m')) : m.Perm ((k, v) :: m') := by
  induction m generalizing v m' with
  | nil => simp [mappingRemove] at h
  | cons p rest ih =>
    rw [mappingRemove] at h
    by_cases hp : p.1 = k
    · have hb : (p.1 == k) = true := by simpa using hp
      rw [if_pos hb] at h
      cases hgl : rest.getLast? with
      | none =>
        rw [hgl] at h
        have hrest : rest = [] := List.getLast?_eq_none_iff.mp hgl
        obtain ⟨pk, pv⟩ := p
        cases hp
        cases h
        rw [hrest]
      | some q =>
        rw [hgl] at h
        obtain ⟨ys, hys⟩ := List.getLast?_eq_some_iff.mp hgl
        obtain ⟨pk, pv⟩ := p
        cases hp
        cases h
        rw [hys, List.dropLast_concat]
        exact List.Perm.cons _ (List.perm_append_comm)
    · have hb : (p.1 == k) = false := by simpa using hp
      rw [if_neg (by simp [hb])] at h
      cases hmr : mappingRemove k rest with
      | none => rw [hmr] at h; cases h
      | some pr =>
        obtain ⟨w, rest'⟩ := pr
        rw [hmr] at h
        cases h
        exact (List.Perm.cons p (ih hmr)).trans (List.Perm.swap _ _ _)

/-- Bundled consequences of a successful `mappingRemove` on a unique-keys
mapping: the removed value is the looked-up one, uniqueness survives, the key
is gone, and every other key's lookup is unchanged. -/
theorem mappingRemove_lookup {k v : Value} {m m' : List (Value × Value)}
    (hm : nodupKeys m) (h : mappingRemove k m = some (v, m')) :
    vlookup k m = some v ∧ nodupKeys m' ∧ (∀ p ∈ m', p.1 ≠ k) ∧
      ∀ k', k' ≠ k → vlookup k' m = vlookup k' m' := by
  have hperm := mappingRemove_perm h
  have hm' : nodupKeys ((k, v) :: m') := (nodupKeys_perm hperm).mp hm
  have hk : ∀ p ∈ m', p.1 ≠ k := by
    intro p hpm
    exact Ne.symm ((List.pairwise_cons.mp hm').1 p hpm)
  refine ⟨?_, (List.pairwise_cons.mp hm').2, hk, ?_⟩
  · rw [vlookup_perm hm hperm, vlookup_cons, if_pos rfl]
  · intro k' hk'
    rw [vlookup_perm hm hperm, vlookup_cons, if_neg (fun hkk => hk' hkk.symm)]

theorem isSuccess_exists {α : Type u} {v : Valid α} :
    v.isSuccess = true ↔ ∃ a, v = Valid.success a := by
  cases v <;> simp [Valid.isSuccess]

/-- When every recursive merge against a value of `rhs` succeeds, the mapping
loop never touches the error accumulator. -/
theorem mergeMapLoop_errors {rhs : List (Value × Value)}
    (hsucc : ∀ p ∈ rhs, ∀ l : Value, ∃ v, Value.merge_right l p.2 = Valid.success v) :
    ∀ lhs errors, (Value.mergeMapLoop lhs errors rhs).2 = errors := by
  induction rhs with
  | nil => intro lhs errors; simp [Value.mergeMapLoop]
  | cons p rest ih =>
    intro lhs errors
    obtain ⟨key, ov⟩ := p
    have ihr := ih (fun q hq l => hsucc q (List.mem_cons_of_mem _ hq) l)
    cases hmr : mappingRemove key lhs with
    | none =>
      simp only [Value.mergeMapLoop, hmr]
      exact ihr _ _
    | some pr =>
      obtain ⟨lv, lhs'⟩ := pr
      obtain ⟨v, hv⟩ := hsucc (key, ov) (List.mem_cons_self _ _) lv
      simp only at hv
      simp only [Value.mergeMapLoop, hmr, hv, Valid.toResult]
      exact ihr _ _

/-- Every `Value::merge_right` call returns `Success`: no branch of the
variant dispatch constructs a fresh error, so by strong induction on the
size of the right value no failure can ever arise. -/
theorem merge_right_isSuccess_aux : ∀ n : Nat, ∀ r : Value, sizeOf r ≤ n →
    ∀ l : Value, (Value.merge_right l r).isSuccess = true := by
  intro n
  induction n using Nat.strong_induction_on with
  | _ n ih =>
    intro r hr l
    cases l with
    | null => cases r <;> simp [Value.merge_right, Valid.succeed, Valid.isSuccess]
    | bool b => cases r <;> simp [Value.merge_right, Valid.succeed, Valid.isSuccess]
    | number m => cases r <;> simp [Value.merge_right, Valid.succeed, Valid.isSuccess]
    | string s => cases r <;> simp [Value.merge_right, Valid.succeed, Valid.isSuccess]
    | sequence ls => cases r <;> simp [Value.merge_right, Valid.succeed, Valid.isSuccess]
    | mapping lm =>
      cases r with
      | mapping rm =>
        have hloop : (Value.mergeMapLoop lm [] rm).2 = [] := by
          apply mergeMapLoop_errors
          intro p hp l'
          have h1 : sizeOf p < sizeOf rm := List.sizeOf_lt_of_mem hp
          have h2 : sizeOf p.2 < sizeOf p := by
            obtain ⟨a, b⟩ := p
            simp only [Prod.mk.sizeOf_spec]
            omega
          have h3 : sizeOf p.2 < n := by simp at hr; omega
          exact isSuccess_exists.mp (ih _ h3 p.2 (le_refl _) l')
        rcases hval : Value.mergeMapLoop lm [] rm with ⟨m, e⟩
        rw [hval] at hloop
        simp only at hloop
        subst hloop
        simp only [Value.merge_right, hval]
        simp [Valid.succeed, Valid.isSuccess]
      | null => simp [Value.merge_right, Valid.succeed, Valid.isSuccess]
      | bool b => simp [Value.merge_right, Valid.succeed, Valid.isSuccess]
      | number m => simp [Value.merge_right, Valid.succeed, Valid.isSuccess]
      | string s => simp [Value.merge_right, Valid.succeed, Valid.isSuccess]
      | sequence rs => simp [Value.merge_right, Valid.succeed, Valid.isSuccess]
      | tagged t v => simp [Value.merge_right, Valid.succeed, Valid.isSuccess]
    | tagged lt lv =>
      cases r with
      | tagged rt rv =>
        simp only [Value.merge_right]
        by_cases ht : (lt == rt) = true
        · rw [if_pos ht]
          have h3 : sizeOf rv < n := by simp at hr; omega
          obtain ⟨v, hv⟩ := isSuccess_exists.mp (ih _ h3 rv (le_refl _) lv)
          rw [hv]
          simp [Valid.succeed, Valid.isSuccess]
        · rw [if_neg ht]
          simp [Valid.succeed, Valid.isSuccess]
      | null => simp [Value.merge_right, Valid.succeed, Valid.isSuccess]
      | bool b => simp [Value.merge_right, Valid.succeed, Valid.isSuccess]
      | number m => simp [Value.merge_right, Valid.succeed, Valid.isSuccess]
      | string s => simp [Value.merge_right, Valid.succeed, Valid.isSuccess]
      | sequence rs => simp [Value.merge_right, Valid.succeed, Valid.isSuccess]
      | mapping rm => simp [Value.merge_right, Valid.succeed, Valid.isSuccess]

theorem merge_right_success (l r : Value) :
    ∃ v, Value.merge_right l r = Valid.success v :=
  isSuccess_exists.mp (merge_right_isSuccess_aux (sizeOf r) r (le_refl _) l)

theorem merge_right_eq_mergedValue (l r : Value) :
    Value.merge_right l r = Valid.success (mergedValue l r) := by
  obtain ⟨v, hv⟩ := merge_right_success l r
  unfold mergedValue
  rw [hv]

theorem nodupKeys_nil {K V : Type u} : nodupKeys ([] : List (K × V)) :=
  List.Pairwise.nil

theorem nodupKeys_cons {K V : Type u} {p : K × V} {m : List (K × V)} :
    nodupKeys (p :: m) ↔ (∀ q ∈ m, p.1 ≠ q.1) ∧ nodupKeys m :=
  List.pairwise_cons

theorem nodupKeys_append_singleton {K V : Type u} {m : List (K × V)} {k : K} {v : V} :
    nodupKeys (m ++ [(k, v)]) ↔ nodupKeys m ∧ ∀ p ∈ m, p.1 ≠ k := by
  unfold nodupKeys
  rw [List.pairwise_append]
  simp

theorem mergeOpt_none_right (o : Option Value) : mergeOpt o none = o := by
  cases o <;> rfl

/-- The mapping-merge loop computes the key-wise union: starting from an
empty error accumulator on unique-keys mappings, it ends with no errors, a
unique-keys result, and per-key lookups given by `mergeOpt`. -/
theorem mergeMapLoop_spec : ∀ (rhs lhs : List (Value × Value)),
    nodupKeys lhs → nodupKeys rhs →
    nodupKeys (Value.mergeMapLoop lhs [] rhs).1 ∧
    (Value.mergeMapLoop lhs [] rhs).2 = [] ∧
    ∀ k, vlookup k (Value.mergeMapLoop lhs [] rhs).1 =
      mergeOpt (vlookup k lhs) (vlookup k rhs) := by
  intro rhs
  induction rhs with
  | nil =>
    intro lhs hl _
    simp only [Value.mergeMapLoop]
    exact ⟨hl, by trivial, fun k => by rw [vlookup_nil, mergeOpt_none_right]⟩
  | cons p rest ih =>
    intro lhs hl hr
    obtain ⟨key, ov⟩ := p
    have hrest : nodupKeys rest := (nodupKeys_cons.mp hr).2
    have hkeyrest : vlookup key rest = none :=
      (vlookup_eq_none_iff _ _).mpr
        (fun q hq => Ne.symm ((nodupKeys_cons.mp hr).1 q hq))
    cases hmr : mappingRemove key lhs with
    | some pr =>
      obtain ⟨lv, lhs'⟩ := pr
      obtain ⟨hlook, hnod', hnotk, hpres⟩ := mappingRemove_lookup hl hmr
      have hmv := merge_right_eq_mergedValue lv ov
      simp only [Value.mergeMapLoop, hmr, hmv, Valid.toResult]
      have hnod₁ : nodupKeys (lhs' ++ [(key, mergedValue lv ov)]) :=
        nodupKeys_append_singleton.mpr ⟨hnod', hnotk⟩
      obtain ⟨ih1, ih2, ih3⟩ := ih (lhs' ++ [(key, mergedValue lv ov)]) hnod₁ hrest
      refine ⟨ih1, ih2, ?_⟩
      intro k
      rw [ih3 k, vlookup_append]
      by_cases hk : k = key
      · subst hk
        have h1 : vlookup k lhs' = none := (vlookup_eq_none_iff _ _).mpr hnotk
        have h2 : vlookup k [(k, mergedValue lv ov)] = some (mergedValue lv ov) := by
          rw [vlookup_cons, if_pos rfl]
        have h3 : vlookup k ((k, ov) :: rest) = some ov := by
          rw [vlookup_cons, if_pos rfl]
        rw [h1, h2, h3, hkeyrest, hlook, Option.none_or]
        rfl
      · have h2 : vlookup k [(key, mergedValue lv ov)] = none := by
          rw [vlookup_cons, if_neg (fun h => hk h.symm), vlookup_nil]
        rw [h2, Option.or_none, ← hpres k hk, vlookup_cons, if_neg (fun h => hk h.symm)]
    | none =>
      have hnone : vlookup key lhs = none := mappingRemove_eq_none.mp hmr
      simp only [Value.mergeMapLoop, hmr]
      have hnod₁ : nodupKeys (lhs ++ [(key, ov)]) :=
        nodupKeys_append_singleton.mpr ⟨hl, (vlookup_eq_none_iff _ _).mp hnone⟩
      obtain ⟨ih1, ih2, ih3⟩ := ih (lhs ++ [(key, ov)]) hnod₁ hrest
      refine ⟨ih1, ih2, ?_⟩
      intro k
      rw [ih3 k, vlookup_append]
      by_cases hk : k = key
      · subst hk
        have h2 : vlookup k [(k, ov)] = some ov := by
          rw [vlookup_cons, if_pos rfl]
        have h3 : vlookup k ((k, ov) :: rest) = some ov := by
          rw [vlookup_cons, if_pos rfl]
        rw [hnone, h2, h3, hkeyrest, Option.none_or]
        rfl
      · have h2 : vlookup k [(key, ov)] = none := by
          rw [vlookup_cons, if_neg (fun h => hk h.symm), vlookup_nil]
        rw [h2, Option.or_none, vlookup_cons, if_neg (fun h => hk h.symm)]

section ContainerLemmas

variable {α : Type u} {K V : Type u}

theorem klookup_nil [DecidableEq K] (k : K) : klookup k ([] : List (K × V)) = none := rfl

theorem klookup_cons [DecidableEq K] (k : K) (p : K × V) (m : List (K × V)) :
    klookup k (p :: m) = if p.1 = k then some p.2 else klookup k m := by
  by_cases h : p.1 = k
  · simp [klookup, List.find?_cons_of_pos, h]
  · simp [klookup, List.find?_cons_of_neg, h]

theorem btreeRemove_of_klookup [DecidableEq K] {k : K} {v : V} :
    ∀ {m : List (K × V)}, klookup k m = some v → ∃ m', btreeRemove k m = some (v, m') := by
  intro m
  induction m with
  | nil => intro h; simp [klookup] at h
  | cons p rest ih =>
    intro h
    rw [klookup_cons] at h
    by_cases hp : p.1 = k
    · rw [if_pos hp] at h
      cases h
      exact ⟨rest, by rw [btreeRemove, if_pos hp]⟩
    · rw [if_neg hp] at h
      obtain ⟨m', hm'⟩ := ih h
      exact ⟨p :: m', by rw [btreeRemove, if_neg hp, hm']⟩

theorem btreeRemove_klookup_ne [DecidableEq K] {k k' : K} (hne : k' ≠ k) :
    ∀ {m m' : List (K × V)} {v : V}, btreeRemove k m = some (v, m') →
      klookup k' m' = klookup k' m := by
  intro m
  induction m with
  | nil => intro m' v h; simp [btreeRemove] at h
  | cons p rest ih =>
    intro m' v h
    rw [btreeRemove] at h
    by_cases hp : p.1 = k
    · rw [if_pos hp] at h
      cases h
      have hpk : p.1 ≠ k' := fun hh => hne (hp.symm.trans hh).symm
      rw [klookup_cons, if_neg hpk]
    · rw [if_neg hp] at h
      cases hmr : btreeRemove k rest with
      | none => rw [hmr] at h; cases h
      | some pr =>
        obtain ⟨w, rest'⟩ := pr
        rw [hmr] at h
        cases h
        rw [klookup_cons, klookup_cons]
        by_cases hpk : p.1 = k'
        · rw [if_pos hpk, if_pos hpk]
        · rw [if_neg hpk, if_neg hpk, ih hmr]

theorem hmInsert_klookup [DecidableEq K] :
    ∀ (m : List (K × V)) (p : K × V) (k : K),
      klookup k (hashMapInsert m p) = if p.1 = k then some p.2 else klookup k m := by
  intro m
  induction m with
  | nil => intro p k; rw [hashMapInsert, klookup_cons]
  | cons q rest ih =>
    intro p k
    rw [hashMapInsert]
    by_cases hq : q.1 = p.1
    · rw [if_pos hq, klookup_cons, klookup_cons]
      by_cases hk : p.1 = k
      · rw [if_pos (hq.trans hk), if_pos hk]
      · have hqk : ¬ q.1 = k := fun hh => hk (hq.symm.trans hh)
        rw [if_neg hqk, if_neg hk, if_neg hqk]
    · rw [if_neg hq, klookup_cons, klookup_cons, ih p k]
      by_cases hpk : q.1 = k
      · have : ¬ p.1 = k := fun hh => hq (hpk.trans hh.symm)
        rw [if_pos hpk, if_neg this, if_pos hpk]
      · rw [if_neg hpk, if_neg hpk]

theorem foldl_hmInsert_klookup_notmem [DecidableEq K] :
    ∀ (r l : List (K × V)) (k : K), (∀ p ∈ r, p.1 ≠ k) →
      klookup k (r.foldl hashMapInsert l) = klookup k l := by
  intro r
  induction r with
  | nil => intro l k _; rfl
  | cons p rest ih =>
    intro l k h
    rw [List.foldl_cons, ih _ _ (fun q hq => h q (List.mem_cons_of_mem _ hq)),
      hmInsert_klookup, if_neg (h p (List.mem_cons_self _ _))]

theorem foldl_hmInsert_klookup_mem [DecidableEq K] :
    ∀ (r l : List (K × V)) (k : K) (v : V), nodupKeys r → (k, v) ∈ r →
      klookup k (r.foldl hashMapInsert l) = some v := by
  intro r
  induction r with
  | nil => intro l k v _ h; simp at h
  | cons p rest ih =>
    intro l k v hnd hmem
    rw [List.foldl_cons]
    rcases List.mem_cons.mp hmem with h | h
    · subst h
      have hrest : ∀ q ∈ rest, q.1 ≠ k :=
        fun q hq => Ne.symm ((nodupKeys_cons.mp hnd).1 q hq)
      rw [foldl_hmInsert_klookup_notmem rest _ k hrest, hmInsert_klookup, if_pos rfl]
    · exact ih _ _ _ (nodupKeys_cons.mp hnd).2 h

/-- Two shared keys whose recursive value merges both fail: the
`BTreeMap` merge reports the two error collections combined in encounter
order as one failure, not just the first one. -/
theorem btreeMerge_two_failures [LinearOrder K] (mergeV : V → V → Valid V)
    (self : List (K × V)) (k1 k2 : K) (rv1 rv2 lv1 lv2 : V) (e1 e2 : List String)
    (hk : k1 ≠ k2) (h1 : klookup k1 self = some lv1) (h2 : klookup k2 self = some lv2)
    (hf1 : mergeV lv1 rv1 = Valid.failure e1) (hf2 : mergeV lv2 rv2 = Valid.failure e2)
    (hne : e1 ≠ []) :
    btreeMapMergeRight mergeV self [(k1, rv1), (k2, rv2)] = Valid.failure (e1 ++ e2) := by
  obtain ⟨self₁, hr1⟩ := btreeRemove_of_klookup h1
  have h2' : klookup k2 self₁ = some lv2 := by
    rw [btreeRemove_klookup_ne (Ne.symm hk) hr1, h2]
  obtain ⟨self₂, hr2⟩ := btreeRemove_of_klookup h2'
  rw [btreeMapMergeRight]
  simp only [btreeMergeLoop, hr1, hf1, Valid.toResult, hr2, hf2]
  have : ¬ (e1 ++ e2).isEmpty = true := by
    simp [List.isEmpty_iff, hne]
  simp [this, Valid.fromValidationErr]

end ContainerLemmas

/-- C2: for every scalar left value (Null, Bool, Number, or String) and every
right value of any variant, `merge_right` returns `Success` of exactly the
right value. -/
theorem c2_scalar_override (l r : Value) (h : l.isScalar = true) :
    Value.merge_right l r = Valid.success r := by
  cases l with
  | null => simp [Value.merge_right, Valid.succeed]
  | bool b => simp [Value.merge_right, Valid.succeed]
  | number n => simp [Value.merge_right, Valid.succeed]
  | string s => simp [Value.merge_right, Valid.succeed]
  | sequence ls => simp [Value.isScalar] at h
  | mapping lm => simp [Value.isScalar] at h
  | tagged t v => simp [Value.isScalar] at h

theorem c2_scalar_override_witness :
    Value.merge_right (Value.number 1) (Value.bool true) = Valid.success (Value.bool true) :=
  c2_scalar_override (Value.number 1) (Value.bool true) rfl

/-- C3: a left `Sequence(ls)` merged with a right `Sequence(rs)` yields
`Sequence(ls ++ rs)` (order preserved exactly), and merged with any
non-sequence right value `r` yields `Sequence(ls ++ [r])`, i.e. `r` appended
as a single new trailing element; both as `Success`. -/
theorem c3_sequence_merge :
    (∀ ls rs : List Value, Value.merge_right (Value.sequence ls) (Value.sequence rs)
        = Valid.success (Value.sequence (ls ++ rs))) ∧
    (∀ (ls : List Value) (r : Value), r.isSequence = false →
      Value.merge_right (Value.sequence ls) r
        = Valid.success (Value.sequence (ls ++ [r]))) := by
  constructor
  · intro ls rs
    simp [Value.merge_right, Valid.succeed]
  · intro ls r h
    cases r with
    | sequence rs => simp [Value.isSequence] at h
    | null => simp [Value.merge_right, Valid.succeed]
    | bool b => simp [Value.merge_right, Valid.succeed]
    | number n => simp [Value.merge_right, Valid.succeed]
    | string s => simp [Value.merge_right, Valid.succeed]
    | mapping rm => simp [Value.merge_right, Valid.succeed]
    | tagged t v => simp [Value.merge_right, Valid.succeed]

theorem c3_sequence_merge_witness :
    Value.merge_right (Value.sequence [Value.number 1]) (Value.bool true)
      = Valid.success (Value.sequence [Value.number 1, Value.bool true]) :=
  c3_sequence_merge.2 [Value.number 1] (Value.bool true) rfl

/-- C4: merging `Tagged(t, l)` with `Tagged(t, r)` (equal tags) recursively
merges `l` with `r` and returns `Success(Tagged(t, merged))`; a failure of
the inner recursive merge is returned immediately, unchanged, as this call's
sole result. -/
theorem c4_tagged_same_tag (t : String) (l r : Value) :
    (∀ m, Value.merge_right l r = Valid.success m →
      Value.merge_right (Value.tagged t l) (Value.tagged t r)
        = Valid.success (Value.tagged t m)) ∧
    (∀ e, Value.merge_right l r = Valid.failure e →
      Value.merge_right (Value.tagged t l) (Value.tagged t r) = Valid.failure e) := by
  constructor
  · intro m hm
    simp only [Value.merge_right]
    rw [if_pos (by simp), hm]
    rfl
  · intro e he
    simp only [Value.merge_right]
    rw [if_pos (by simp), he]

theorem c4_tagged_same_tag_witness :
    Value.merge_right (Value.tagged "T" Value.null) (Value.tagged "T" (Value.bool true))
      = Valid.success (Value.tagged "T" (Value.bool true)) :=
  (c4_tagged_same_tag "T" Value.null (Value.bool true)).1 (Value.bool true)
    (by simp [Value.merge_right, Valid.succeed])

/-- C5: merging `Tagged(a, v1)` with `Tagged(b, v2)` where the tags differ
returns `Success(Tagged(b, v2))` — the right tagged value replaces the left
with no merging of inner contents. -/
theorem c5_tagged_tag_mismatch (a b : String) (v1 v2 : Value) (h : a ≠ b) :
    Value.merge_right (Value.tagged a v1) (Value.tagged b v2)
      = Valid.success (Value.tagged b v2) := by
  simp only [Value.merge_right]
  rw [if_neg (by simp [h])]
  rfl

theorem c5_tagged_tag_mismatch_witness :
    Value.merge_right (Value.tagged "A" Value.null) (Value.tagged "B" (Value.bool true))
      = Valid.success (Value.tagged "B" (Value.bool true)) :=
  c5_tagged_tag_mismatch "A" "B" Value.null (Value.bool true) (by decide)

/-- C6: for every pair of document values, `Value::merge_right` returns
`Success`; the `Failure` outcome is unreachable. -/
theorem c6_merge_always_success :
    ∀ l r : Value, (∃ v, Value.merge_right l r = Valid.success v) ∧
      ∀ e, Value.merge_right l r ≠ Valid.failure e := by
  intro l r
  obtain ⟨v, hv⟩ := merge_right_success l r
  refine ⟨⟨v, hv⟩, fun e he => ?_⟩
  rw [hv] at he
  cases he

/-- C1: a `Mapping`/`Mapping` merge is the key-wise union — shared keys get
their values recursively merged, right-only keys are inserted, left-only
keys are retained (first conjunct, on document values, where every recursive
merge succeeds); and in the ordered-map merge, when the recursive merges of
several shared keys fail, the errors of all failing keys are combined in
encounter order into one failure instead of stopping at the first failing
key (second conjunct, on the generic `BTreeMap` merge the `Mapping` arm
mirrors). -/
theorem c1_mapping_union :
    (∀ lm rm : List (Value × Value), nodupKeys lm → nodupKeys rm →
      ∃ res, Value.merge_right (Value.mapping lm) (Value.mapping rm)
          = Valid.success (Value.mapping res) ∧
        ∀ k, vlookup k res = mergeOpt (vlookup k lm) (vlookup k rm)) ∧
    (∀ (K V : Type u) [LinearOrder K] (mergeV : V → V → Valid V)
      (self : List (K × V)) (k1 k2 : K) (rv1 rv2 lv1 lv2 : V) (e1 e2 : List String),
      k1 ≠ k2 → klookup k1 self = some lv1 → klookup k2 self = some lv2 →
      mergeV lv1 rv1 = Valid.failure e1 → mergeV lv2 rv2 = Valid.failure e2 →
      e1 ≠ [] →
      btreeMapMergeRight mergeV self [(k1, rv1), (k2, rv2)]
        = Valid.failure (e1 ++ e2)) := by
  constructor
  · intro lm rm hl hr
    obtain ⟨hn, he, hlook⟩ := mergeMapLoop_spec rm lm hl hr
    rcases hval : Value.mergeMapLoop lm [] rm with ⟨res, errs⟩
    rw [hval] at he hlook
    simp only at he hlook
    subst he
    refine ⟨res, ?_, hlook⟩
    simp only [Value.merge_right, hval]
    simp [Valid.succeed]
  · intro K V instK mergeV self k1 k2 rv1 rv2 lv1 lv2 e1 e2 hk h1 h2 hf1 hf2 hne
    exact btreeMerge_two_failures mergeV self k1 k2 rv1 rv2 lv1 lv2 e1 e2 hk h1 h2
      hf1 hf2 hne

theorem c1_mapping_union_witness :
    (∃ res, Value.merge_right
        (Value.mapping [(Value.string "x", Value.sequence [Value.number 1])])
        (Value.mapping [(Value.string "x", Value.sequence [Value.number 2]),
          (Value.string "y", Value.null)])
        = Valid.success (Value.mapping res) ∧
      ∀ k, vlookup k res =
        mergeOpt (vlookup k [(Value.string "x", Value.sequence [Value.number 1])])
          (vlookup k [(Value.string "x", Value.sequence [Value.number 2]),
            (Value.string "y", Value.null)])) ∧
    btreeMapMergeRight (fun a _ => Valid.failure (if a = 10 then ["A"] else ["B"]))
        [(1, 10), (2, 20)] [(1, 0), (2, 0)]
      = Valid.failure (["A"] ++ ["B"]) :=
  ⟨c1_mapping_union.{0}.1 _ _ (by simp [nodupKeys]) (by simp [nodupKeys]),
   c1_mapping_union.{0}.2 Nat Nat _ [(1, 10), (2, 20)] 1 2 0 0 10 20 ["A"] ["B"]
     (by decide) (by decide) (by decide) (by decide) (by decide) (by decide)⟩

/-- C7 is refuted: merging `Mapping{x: Null, y: Bool(true)}` with
`Mapping{x: Bool(false)}` yields `Mapping{y: Bool(true), x: Bool(false)}` —
the shared key `x` is moved to the end of the insertion order instead of
keeping its original slot 0 as the claim states. -/
theorem c7_counterexample :
    Value.merge_right
        (Value.mapping [(Value.string "x", Value.null), (Value.string "y", Value.bool true)])
        (Value.mapping [(Value.string "x", Value.bool false)])
      = Valid.success (Value.mapping
          [(Value.string "y", Value.bool true), (Value.string "x", Value.bool false)]) ∧
    Value.merge_right
        (Value.mapping [(Value.string "x", Value.null), (Value.string "y", Value.bool true)])
        (Value.mapping [(Value.string "x", Value.bool false)])
      ≠ Valid.success (Value.mapping
          [(Value.string "x", Value.bool false), (Value.string "y", Value.bool true)]) := by
  have h : Value.merge_right
      (Value.mapping [(Value.string "x", Value.null), (Value.string "y", Value.bool true)])
      (Value.mapping [(Value.string "x", Value.bool false)])
    = Valid.success (Value.mapping
        [(Value.string "y", Value.bool true), (Value.string "x", Value.bool false)]) := by
    simp [Value.merge_right, Value.mergeMapLoop, mappingRemove, Value.beq,
      Valid.toResult, Valid.succeed]
  refine ⟨h, ?_⟩
  rw [h]
  simp

/-- C7 (amended): a shared key does not keep the left mapping's slot. It is
swap-removed — the mapping's last entry at that moment fills the vacated
slot — and its merged value is appended at the end: merging `Mapping(lhs)`
with a single-entry `Mapping{k: v}` whose key is shared yields exactly the
swap-removed left mapping followed by `(k, merged)` as the final entry. -/
theorem c7_amended_shared_key_moves (lhs rest : List (Value × Value)) (k v w m : Value)
    (hrem : mappingRemove k lhs = some (w, rest))
    (hm : Value.merge_right w v = Valid.success m) :
    Value.merge_right (Value.mapping lhs) (Value.mapping [(k, v)])
      = Valid.success (Value.mapping (rest ++ [(k, m)])) := by
  simp only [Value.merge_right, Value.mergeMapLoop, hrem, hm, Valid.toResult]
  simp [Valid.succeed]

theorem c7_amended_shared_key_moves_witness :
    Value.merge_right
        (Value.mapping [(Value.string "x", Value.null), (Value.string "y", Value.bool true)])
        (Value.mapping [(Value.string "x", Value.bool false)])
      = Valid.success (Value.mapping
          ([(Value.string "y", Value.bool true)] ++ [(Value.string "x", Value.bool false)])) :=
  c7_amended_shared_key_moves
    [(Value.string "x", Value.null), (Value.string "y", Value.bool true)]
    [(Value.string "y", Value.bool true)]
    (Value.string "x") (Value.bool false) Value.null (Value.bool false)
    (by simp [mappingRemove, Value.beq])
    (by simp [Value.merge_right, Valid.succeed])

/-- C8: the `Option::merge_right` behavior the spec states (the impl in src
being an ill-typed slip, this is proved of the spec-modelled definition):
both present → `Success(Some(merged))` with a recursive failure propagated
unchanged, only-right → right, only-left → left, neither → `Success(None)`. -/
theorem c8_option_merge :
    ∀ (α : Type u) (mergeA : α → α → Valid α),
      (∀ l r : α, optionMergeRight mergeA (some l) (some r)
          = match mergeA l r with
            | .success m => Valid.success (some m)
            | .failure e => Valid.failure e) ∧
      (∀ r : α, optionMergeRight mergeA none (some r) = Valid.success (some r)) ∧
      (∀ l : α, optionMergeRight mergeA (some l) none = Valid.success (some l)) ∧
      optionMergeRight mergeA none none = Valid.success (none : Option α) := by
  intro α mergeA
  refine ⟨fun l r => ?_, fun r => rfl, fun l => rfl, rfl⟩
  cases hm : mergeA l r <;> simp [optionMergeRight, hm, Valid.succeed]

/-- C9 is refuted: with a non-uniquely-held left side `Arc(5)` and a unique
right side `Arc(7)`, the code merges the recovered options and defaults only
an absent result, yielding `Arc(7)` — the right value unmerged — whereas the
claim's procedure (default each unrecoverable side, then merge) would yield
`Arc(bumpMerge 0 7) = Arc(8)`. -/
theorem c9_counterexample :
    arcMergeRight bumpMerge 0 ⟨5, false⟩ ⟨7, true⟩ = Valid.success (Arc.new 7) ∧
    arcMergeRightSpec bumpMerge 0 ⟨5, false⟩ ⟨7, true⟩ = Valid.success (Arc.new 8) ∧
    Arc.new 7 ≠ Arc.new (8 : Nat) :=
  ⟨rfl, rfl, by decide⟩

/-- C9 (amended): `Arc::merge_right` unwraps each side when uniquely held and
merges the two recovered options by the option rule, so a side that is present
alone is taken unmerged (never merged against the default); the default only
substitutes when both sides are unrecoverable or the recursive merge failed;
the result is re-wrapped as `Success`. A non-uniquely-owned side's data is
thus silently dropped. -/
theorem c9_arc_merge_amended :
    ∀ (α : Type u) (mergeA : α → α → Valid α) (dflt : α) (l r : Arc α),
      (l.unique = false → r.unique = true →
        arcMergeRight mergeA dflt l r = Valid.success (Arc.new r.value)) ∧
      (l.unique = true → r.unique = false →
        arcMergeRight mergeA dflt l r = Valid.success (Arc.new l.value)) ∧
      (l.unique = false → r.unique = false →
        arcMergeRight mergeA dflt l r = Valid.success (Arc.new dflt)) ∧
      (l.unique = true → r.unique = true →
        arcMergeRight mergeA dflt l r
          = match mergeA l.value r.value with
            | .success m => Valid.success (Arc.new m)
            | .failure _ => Valid.success (Arc.new dflt)) := by
  intro α mergeA dflt l r
  refine ⟨?_, ?_, ?_, ?_⟩ <;> intro hl hr
  · simp [arcMergeRight, Arc.intoInner, hl, hr, optionMergeRight,
      Valid.unwrapOptionOr, Valid.succeed]
  · simp [arcMergeRight, Arc.intoInner, hl, hr, optionMergeRight,
      Valid.unwrapOptionOr, Valid.succeed]
  · simp [arcMergeRight, Arc.intoInner, hl, hr, optionMergeRight,
      Valid.unwrapOptionOr, Valid.succeed]
  · cases hm : mergeA l.value r.value <;>
      simp [arcMergeRight, Arc.intoInner, hl, hr, optionMergeRight, hm,
        Valid.unwrapOptionOr, Valid.succeed]

theorem c9_arc_merge_amended_witness :
    arcMergeRight bumpMerge 0 ⟨5, false⟩ ⟨7, true⟩ = Valid.success (Arc.new 7) :=
  (c9_arc_merge_amended Nat bumpMerge 0 ⟨5, false⟩ ⟨7, true⟩).1 rfl rfl

/-- C10: the extend-based container merges always return `Success` — `Vec`
concatenates left elements then right elements with no deduplication, the
ordered and hash sets union their elements, and the hash map lets right
entries overwrite left entries sharing a key — none has a reachable failure
outcome. -/
theorem c10_extend_merges :
    ∀ (α K V : Type u) [DecidableEq α] [DecidableEq K],
      (∀ l r : List α, vecMergeRight l r = Valid.success (l ++ r)) ∧
      (∀ l r : List α, (btreeSetMergeRight l r).isSuccess = true) ∧
      (∀ l r : List α, (hashSetMergeRight l r).isSuccess = true) ∧
      (∀ l r : List (K × V), (hashMapMergeRight l r).isSuccess = true) ∧
      (∀ (l r : List (K × V)) (k : K) (v : V), nodupKeys r → (k, v) ∈ r →
        hashMapMergeRight l r = Valid.success (r.foldl hashMapInsert l) ∧
        klookup k (r.foldl hashMapInsert l) = some v) := by
  intro α K V instA instK
  refine ⟨fun l r => rfl, fun l r => rfl, fun l r => rfl, fun l r => rfl, ?_⟩
  intro l r k v hnd hmem
  exact ⟨rfl, foldl_hmInsert_klookup_mem r l k v hnd hmem⟩

theorem c10_extend_merges_witness :
    hashMapMergeRight [(1, 10)] [(1, 99), (2, 20)]
      = Valid.success ([(1, 99), (2, 20)].foldl hashMapInsert [(1, 10)]) ∧
    klookup 1 ([(1, 99), (2, 20)].foldl hashMapInsert [(1, 10)]) = some 99 :=
  (c10_extend_merges Nat Nat Nat).2.2.2.2 [(1, 10)] [(1, 99), (2, 20)] 1 99
    (by simp [nodupKeys]) (by simp)
